import Mathlib

/-!
# Verification development for the sxmc MCMC fitter

Shallow embedding of the sxmc sources (src/signals.cpp, src/signal.h,
src/mcmc.h) together with the MCMC core that mcmc.h declares.

Conventions of the embedding:

* C++ float/double values are modelled as exact rationals (for the
  data-preparation code of signals.cpp, which uses only comparisons and
  copies) or exact reals (for the likelihood arithmetic, which uses log
  and exp).  Flat row-major arrays such as the dataset and sample buffers
  are modelled as lists of rows: row i of a flat buffer d with n fields
  is d[i*n .. i*n+n).
* The pdfz histogram evaluator is an external collaborator of the code
  under study; it is abstracted as a function argument where a routine of
  signals.cpp calls into it.
* The implementation file of class MCMC is not part of the sources; its
  routines are modelled from the specification, as marked in their doc
  comments.
-/

namespace Sxmc

/-- An observable as used by signals.cpp: a named field with a fit range
`[lower, upper]`, used as a cut in `read_dataset_to_samples`, and an
optional exclusion region `[exclude_min, exclude_max]` used by
`apply_exclusions`. -/
structure Observable where
  field : String
  lower : ℚ
  upper : ℚ
  exclude : Bool
  exclude_min : ℚ
  exclude_max : ℚ

/-! ## Signal::read_dataset_to_samples (src/signals.cpp lines 10-65) -/

/-- The cut lookup table of `read_dataset_to_samples` (signals.cpp lines
15-27): for a dataset field name `f`, scan the cut list in order and keep
the bounds of each cut whose field matches, so that the last matching cut
wins.  Returns `none` when no cut mentions the field
(`field_has_cut = false`). -/
def fieldCut (cuts : List Observable) (f : String) : Option (ℚ × ℚ) :=
  cuts.foldl (fun acc c => if c.field = f then some (c.lower, c.upper) else acc) none

/-- The cut test of `read_dataset_to_samples` (signals.cpp lines 41-50):
an event is valid unless some dataset field has a cut and the value in
that field is below the lower or above the upper bound. -/
def passesCuts (cuts : List Observable) (dataset_fields : List String)
    (ev : List ℚ) : Bool :=
  (dataset_fields.zip ev).all fun p =>
    match fieldCut cuts p.1 with
    | none => true
    | some lu => !(decide (p.2 < lu.1) || decide (lu.2 < p.2))

/-- The sample projection of `read_dataset_to_samples` (signals.cpp lines
29-36 and 56-61): each sample field is copied from the dataset column of
the same name, located with `std::find` (first occurrence).  An absent
name would index one past the end in the C++ code; the model returns 0
there. -/
def projectSample (sample_fields dataset_fields : List String)
    (ev : List ℚ) : List ℚ :=
  sample_fields.map fun sf => ev.getD (dataset_fields.indexOf sf) 0

/-- The main loop of `Signal::read_dataset_to_samples` (signals.cpp lines
38-64), on the row decomposition of the flat arrays: events failing a cut
are skipped, passing events have their sample fields copied in order, and
the final resize leaves exactly the copied rows. -/
def read_dataset_to_samples (sample_fields dataset_fields : List String)
    (cuts : List Observable) : List (List ℚ) → List (List ℚ)
  | [] => []
  | ev :: rest =>
    if passesCuts cuts dataset_fields ev then
      projectSample sample_fields dataset_fields ev ::
        read_dataset_to_samples sample_fields dataset_fields cuts rest
    else
      read_dataset_to_samples sample_fields dataset_fields cuts rest

/-! ## Signal::apply_exclusions (src/signals.cpp lines 68-126) -/

/-- The exclusion lookup table of `apply_exclusions` (signals.cpp lines
72-85): for a sample field name `f`, scan the observables in order and
keep the exclusion bounds of each observable whose field matches and
whose `exclude` flag is set; the last match wins. -/
def fieldExclude (observables : List Observable) (f : String) : Option (ℚ × ℚ) :=
  observables.foldl
    (fun acc o =>
      if o.field = f ∧ o.exclude = true then some (o.exclude_min, o.exclude_max)
      else acc)
    none

/-- The exclusion counters of `apply_exclusions` (signals.cpp lines
91-105) for one event: the first component counts the sample fields that
have an exclusion region (`excludes_total`), the second those whose value
lies inside its region, bounds included (`excludes_cut`). -/
def excludeCounts (observables : List Observable) :
    List (String × ℚ) → ℕ × ℕ
  | [] => (0, 0)
  | p :: ps =>
    let c := excludeCounts observables ps
    match fieldExclude observables p.1 with
    | none => c
    | some lu =>
      (c.1 + 1, if lu.1 ≤ p.2 ∧ p.2 ≤ lu.2 then c.2 + 1 else c.2)

/-- The removal test of `apply_exclusions` (signals.cpp line 107): an
event is dropped when `excludes_total > 0 && excludes_cut == excludes_total`. -/
def isExcluded (observables : List Observable) (sample_fields : List String)
    (ev : List ℚ) : Bool :=
  let c := excludeCounts observables (sample_fields.zip ev)
  decide (0 < c.1) && decide (c.2 = c.1)

/-- The compaction loop of `apply_exclusions` (signals.cpp lines 89-122)
over rows paired with their weights: excluded events are skipped, kept
events are written back in order together with their weight. -/
def exclusionLoop (observables : List Observable) (sample_fields : List String) :
    List (List ℚ × ℤ) → List (List ℚ) × List ℤ
  | [] => ([], [])
  | (ev, w) :: rest =>
    let r := exclusionLoop observables sample_fields rest
    if isExcluded observables sample_fields ev then r
    else (ev :: r.1, w :: r.2)

/-- `Signal::apply_exclusions` (signals.cpp lines 68-126) on the row
decomposition.  When `weights` is empty on entry the C++ loop never
writes a weight and the final `weights.resize(sample_index)` fills the
vector with value-initialized (zero) ints; the model pairs each row with
weight 0 in that case. -/
def apply_exclusions (sample_fields : List String)
    (observables : List Observable) (rows : List (List ℚ)) (weights : List ℤ) :
    List (List ℚ) × List ℤ :=
  let paired :=
    rows.zip (if weights.isEmpty then List.replicate rows.length 0 else weights)
  exclusionLoop observables sample_fields paired

/-! ## Signal::set_efficiency (src/signals.cpp lines 129-172) -/

/-- A systematic as consumed by `set_efficiency`: the central values of
its parameters (`means[0..npars)`, with `npars = means.length`). -/
structure Systematic where
  means : List ℚ

/-- The mutable signal fields touched by `set_efficiency` (declared in
signals.h; cf. the variant in src/signal.h): the expected count, the MC
sample count, the efficiency and the post-cut event count. -/
structure SignalState where
  nexpected : ℚ
  n_mc : ℕ
  efficiency : ℚ
  nevents : ℕ

/-- The parameter buffer filled by `set_efficiency` (signals.cpp lines
138-147): the concatenation, systematic by systematic, of every
systematic parameter mean. -/
def meansBuffer (systematics : List Systematic) : List ℚ :=
  (systematics.map Systematic.means).flatten

/-- `Signal::set_efficiency` (signals.cpp lines 129-172).  The pdfz
histogram evaluation (`SetParameterBuffer` / `EvalAsync` / the
normalization buffer read-back) is the external collaborator; it is
abstracted as `histNorm`, mapping a parameter buffer to the number of
samples that fall inside the histogram limits.  The routine evaluates the
histogram once, with every systematic parameter at its mean, sets
`nevents` to the returned normalization, sets
`efficiency = nevents / n_mc`, and scales `nexpected` by the efficiency
exactly once. -/
def set_efficiency (histNorm : List ℚ → ℕ) (sig : SignalState)
    (systematics : List Systematic) : SignalState :=
  let nevents := histNorm (meansBuffer systematics)
  let efficiency := (nevents : ℚ) / (sig.n_mc : ℚ)
  { sig with
    nevents := nevents
    efficiency := efficiency
    nexpected := sig.nexpected * efficiency }

/-! ## The MCMC core

The implementation file of class MCMC (the definitions of `MCMC::nll`
and `MCMC::operator()` declared in src/mcmc.h) is not among the sources;
the definitions below are modelled from the specification, following the
doc comments of src/mcmc.h. -/

/-- Partition of a list into chunks of size `b + 1` (the last chunk may
be shorter).  Models the partition of the events into equal-sized chunks
for stage 1 of the NLL evaluation. -/
def chunksOf (b : ℕ) : List α → List (List α)
  | [] => []
  | x :: xs => (x :: xs).take (b + 1) :: chunksOf b ((x :: xs).drop (b + 1))
termination_by l => l.length
decreasing_by
  simp only [List.length_drop, List.length_cons]
  omega

/-- Modelled from the spec: the expected count N_j(v) of signal j is the
rate parameter of its correlated source scaled by the efficiency-adjusted
expectation, N_j(v) = v[source_id[j]] * nexpected[j] (spec section 3,
Source; mcmc.h parameters nexpected and source_id; the defining code in
the missing mcmc implementation file). -/
def njList (v : List ℝ) (nexpected : List ℝ) (source_id : List ℕ) : List ℝ :=
  (nexpected.zip source_id).map fun p => v.getD p.2 0 * p.1

/-- Modelled from the spec: the per-event inner sum
Σ_j N_j(v) * P_j(x_i) / N_mc_j of the NLL event term (spec section 4.2;
mcmc.h doc comment of MCMC::nll; the kernel code is missing). -/
noncomputable def eventDensity : List ℝ → List ℕ → List ℝ → ℝ
  | nj :: njs, m :: ms, p :: ps => nj * p / (m : ℝ) + eventDensity njs ms ps
  | _, _, _ => 0

/-- Modelled from the spec: numerically safe log for the event term,
treating zero-density events as contributing zero weight rather than a
non-finite log (spec section 4.2 stage 1). -/
noncomputable def safeLog (x : ℝ) : ℝ :=
  if 0 < x then Real.log x else 0

/-- Modelled from the spec: stage 1 of the NLL evaluation, the partial
sum of the log event terms over one chunk of events (spec section 4.2;
mcmc.h doc comment step 1; the kernel code is missing). -/
noncomputable def eventChunkSum (nj : List ℝ) (n_mc : List ℕ)
    (chunk : List (List ℝ)) : ℝ :=
  (chunk.map fun row => safeLog (eventDensity nj n_mc row)).sum

/-- Modelled from the spec: stage 2 of the NLL evaluation, the reduction
of the per-chunk partial sums into one total (spec section 4.2; mcmc.h
doc comment step 2; the kernel code is missing). -/
noncomputable def eventTotalSum (nj : List ℝ) (n_mc : List ℕ)
    (chunks : List (List (List ℝ))) : ℝ :=
  (chunks.map (eventChunkSum nj n_mc)).sum

/-- Modelled from the spec: the Gaussian constraint term
Σ_k ((v_k - mean_k) / sigma_k)^2 over the floating systematic
parameters, with a zero-sigma systematic contributing nothing (spec
section 4.2; the mcmc implementation file is missing). -/
noncomputable def constraintSum : List ℝ → List ℝ → List ℝ → List Bool → ℝ
  | x :: xs, m :: ms, s :: ss, f :: fs =>
    (if f = false ∧ s ≠ 0 then ((x - m) / s) ^ 2 else 0) + constraintSum xs ms ss fs
  | _, _, _, _ => 0

/-- The per-signal and per-systematic configuration consumed by the NLL
evaluator: the quantities that mcmc.h passes alongside the lookup table
(nexpected, n_mc, source_id) together with the parameter metadata of the
Parameter Model (number of source rate parameters, and the systematic
means, sigmas and fixed flags). -/
structure NLLConfig where
  nexpected : List ℝ
  n_mc : List ℕ
  source_id : List ℕ
  nsources : ℕ
  syst_means : List ℝ
  syst_sigma : List ℝ
  syst_fixed : List Bool

/-- Modelled from the spec: stage 3 of the NLL evaluation, combining the
total event sum with the normalization term Σ_j N_j and one half of the
Gaussian systematics constraint (spec section 4.2; mcmc.h doc comment
step 3; the kernel code is missing). -/
noncomputable def nllCombine (cfg : NLLConfig) (v : List ℝ) (eventSum : ℝ) : ℝ :=
  (njList v cfg.nexpected cfg.source_id).sum
    + (1 / 2) * constraintSum (v.drop cfg.nsources) cfg.syst_means
        cfg.syst_sigma cfg.syst_fixed
    - eventSum

/-- Modelled from the spec: the three-stage NLL evaluation on a given
chunk partition of the lookup-table rows. -/
noncomputable def nllFromChunks (cfg : NLLConfig) (v : List ℝ)
    (chunks : List (List (List ℝ))) : ℝ :=
  nllCombine cfg v
    (eventTotalSum (njList v cfg.nexpected cfg.source_id) cfg.n_mc chunks)

/-- Modelled from the spec: `MCMC::nll` (declared at src/mcmc.h lines
106-113; the implementation file is missing).  The lookup table is the
list of its `nevents` rows, each row holding the `nsignals` PDF values of
one event; the events are partitioned into chunks of size
`blocksize + 1` for stage 1. -/
noncomputable def MCMC.nll (cfg : NLLConfig) (blocksize : ℕ)
    (lut : List (List ℝ)) (v : List ℝ) : ℝ :=
  nllFromChunks cfg v (chunksOf blocksize lut)

/-- The chain state of the random walk: current accepted parameter
vector and its NLL. -/
structure ChainState where
  v : List ℝ
  nll : ℝ

/-- The random draws consumed by one step of the walk: one
standard-normal draw per parameter for the proposal, and one uniform
draw for the acceptance test. -/
structure StepRand where
  gauss : List ℝ
  u : ℝ

/-- Modelled from the spec: the proposal generator (spec section 4.3; the
mcmc implementation file is missing).  Each floating parameter is drawn
from a Gaussian centered at its current value with its proposal sigma
(current + sigma * standard-normal draw); fixed parameters are copied
unchanged. -/
def propose : List ℝ → List Bool → List ℝ → List ℝ → List ℝ
  | x :: xs, f :: fs, s :: ss, g :: gs =>
    (if f = true then x else x + s * g) :: propose xs fs ss gs
  | _, _, _, _ => []

/-- Modelled from the spec: the Metropolis acceptance rule (spec section
4.4; the mcmc implementation file is missing).  Accept unconditionally
when the candidate NLL does not exceed the current one; otherwise accept
exactly when the uniform draw is below exp(nll - nllCand). -/
noncomputable def mhAccept (nllCur nllCand u : ℝ) : Bool :=
  if nllCand ≤ nllCur then true
  else if u < Real.exp (nllCur - nllCand) then true else false

/-- Modelled from the spec: one step of the Metropolis controller (spec
section 4.4; the mcmc implementation file is missing).  A candidate is
proposed, its NLL evaluated (the evaluator `E` closes over the lookup
table), the acceptance rule applied (in debug mode every step is
accepted), and the chain state moves to the candidate exactly when it is
accepted.  Returns the new state and the acceptance flag. -/
noncomputable def mcmcStep (E : List ℝ → ℝ) (fixedf : List Bool)
    (sigma : List ℝ) (debug_mode : Bool) (s : ChainState) (r : StepRand) :
    ChainState × Bool :=
  let cand := propose s.v fixedf sigma r.gauss
  let nllCand := E cand
  let acc := debug_mode || mhAccept s.nll nllCand r.u
  (if acc = true then ⟨cand, nllCand⟩ else s, acc)

/-- Modelled from the spec: the walk loop of the Metropolis controller
(spec section 4.4; the mcmc implementation file is missing), returning
the recorded samples.  Step `i` records its accepted state (parameter
vector and NLL) exactly when `i` is past the burn-in prefix and the step
was accepted; in debug mode every post-burn-in step is recorded since
every step is accepted. -/
noncomputable def walkAux (E : List ℝ → ℝ) (fixedf : List Bool)
    (sigma : List ℝ) (debug_mode : Bool) (burnin : ℕ) :
    ChainState → ℕ → List StepRand → List (List ℝ × ℝ)
  | _, _, [] => []
  | s, i, r :: rs =>
    (if burnin ≤ i ∧ (mcmcStep E fixedf sigma debug_mode s r).2 = true
      then [((mcmcStep E fixedf sigma debug_mode s r).1.v,
             (mcmcStep E fixedf sigma debug_mode s r).1.nll)]
      else []) ++
      walkAux E fixedf sigma debug_mode burnin
        (mcmcStep E fixedf sigma debug_mode s r).1 (i + 1) rs

/-- Modelled from the spec: the sequence of candidate vectors proposed
along the walk (spec sections 4.3 and 4.4; the mcmc implementation file
is missing). -/
noncomputable def walkProposals (E : List ℝ → ℝ) (fixedf : List Bool)
    (sigma : List ℝ) (debug_mode : Bool) :
    ChainState → List StepRand → List (List ℝ)
  | _, [] => []
  | s, r :: rs =>
    propose s.v fixedf sigma r.gauss ::
      walkProposals E fixedf sigma debug_mode
        (mcmcStep E fixedf sigma debug_mode s r).1 rs

/-- The result object of the walk: all recorded samples (parameter
vector and NLL) together with the parameter names (spec section 3,
LikelihoodSpace). -/
structure LikelihoodSpace where
  parameter_names : List String
  samples : List (List ℝ × ℝ)

/-- The fixed per-run configuration of the walk: parameter names, fixed
flags and proposal sigmas (the Parameter Model), the initial chain state
(parameter central values and their NLL), and the NLL evaluator as a
function of the parameter vector (the lookup table and the per-signal
inputs are closed over, supplied by the PDF lookup table provider). -/
structure MCMCModel where
  parameter_names : List String
  parameter_fixed : List Bool
  parameter_sigma : List ℝ
  init : ChainState
  E : List ℝ → ℝ

/-- Modelled from the spec: `MCMC::operator()` (declared at src/mcmc.h
lines 73-77; the implementation file is missing).  Takes the data, the
step count, the burn-in fraction, the debug flag and the sync interval;
runs `nsteps` Metropolis steps with a burn-in prefix of
`floor(nsteps * burnin_fraction)` steps; the recorder flushes the sample
buffer every `sync_interval` steps and the final LikelihoodSpace is the
concatenation of the flushed blocks.  The data enters the walk through
the evaluator `m.E`, which the lookup-table provider builds from it. -/
noncomputable def MCMC.run (m : MCMCModel) (rand : List StepRand)
    (data : List ℝ) (nsteps : ℕ) (burnin_fraction : ℚ) (debug_mode : Bool)
    (sync_interval : ℕ) : LikelihoodSpace :=
  { parameter_names := m.parameter_names
    samples :=
      (chunksOf (sync_interval - 1)
        (walkAux m.E m.parameter_fixed m.parameter_sigma debug_mode
          (Nat.floor ((nsteps : ℚ) * burnin_fraction)) m.init 0
          (rand.take nsteps))).flatten }

/-- Modelled from the spec: the invocation surface with the trailing
arguments left at their declared defaults, `debug_mode = false` and
`sync_interval = 10000` (src/mcmc.h lines 73-77). -/
noncomputable def MCMC.runDefault (m : MCMCModel) (rand : List StepRand)
    (data : List ℝ) (nsteps : ℕ) (burnin_fraction : ℚ) : LikelihoodSpace :=
  MCMC.run m rand data nsteps burnin_fraction false 10000

/-- Modelled from the spec: one step of a deterministic seedable random
stream (spec section 9, pool of independent seedable streams; the curand
state code of mcmc.h line 134 is device-specific and missing), as a
64-bit linear congruential update. -/
def lcg (s : ℕ) : ℕ :=
  (6364136223846793005 * s + 1442695040888963407) % 2 ^ 64

/-- Modelled from the spec: the n-th raw draw of the stream seeded with
`seed`. -/
def rngNat (seed : ℕ) : ℕ → ℕ
  | 0 => lcg seed
  | n + 1 => lcg (rngNat seed n)

/-- Modelled from the spec: the seed owned by a lane of the RNG pool
(spec section 5, random-number state partitioned per lane). -/
def laneSeed (seeds : List ℕ) (nlanes lane : ℕ) : ℕ :=
  seeds.getD (lane % max nlanes 1) 0

/-- Modelled from the spec: the draws consumed by one step, produced
from the per-lane streams; the transforms from raw draws to
standard-normal and uniform variates are abstracted as `gX` and `uX`. -/
def stepRandOfSeeds (gX uX : ℕ → ℝ) (seeds : List ℕ)
    (nlanes nparams step : ℕ) : StepRand :=
  { gauss := (List.range nparams).map fun k =>
      gX (rngNat (laneSeed seeds nlanes k) (step * (nparams + 1) + k))
    u := uX (rngNat (laneSeed seeds nlanes 0) (step * (nparams + 1) + nparams)) }

/-- Modelled from the spec: a full run driven by the seeded RNG pool,
returning the LikelihoodSpace and the sequence of proposed candidate
vectors (spec sections 4.3-4.5 and 5; the mcmc implementation file is
missing). -/
noncomputable def runFromSeeds (m : MCMCModel) (gX uX : ℕ → ℝ)
    (seeds : List ℕ) (nlanes : ℕ) (data : List ℝ) (nsteps : ℕ)
    (burnin_fraction : ℚ) (debug_mode : Bool) (sync_interval : ℕ) :
    LikelihoodSpace × List (List ℝ) :=
  let rand := (List.range nsteps).map
    (stepRandOfSeeds gX uX seeds nlanes m.parameter_sigma.length)
  (MCMC.run m rand data nsteps burnin_fraction debug_mode sync_interval,
   walkProposals m.E m.parameter_fixed m.parameter_sigma debug_mode m.init rand)

/-! ## Helper lemmas for the data-preparation routines -/

theorem find?_append_or {α : Type _} (p : α → Bool) :
    ∀ l1 l2 : List α, (l1 ++ l2).find? p = (l1.find? p).or (l2.find? p)
  | [], l2 => by simp
  | a :: l1, l2 => by
    by_cases h : p a = true
    · simp [List.find?_cons_of_pos _ h]
    · have h' : p a = false := by simpa using h
      simp [List.find?_cons_of_neg, h', find?_append_or p l1 l2]

theorem fieldCut_foldl_acc (f : String) :
    ∀ (cuts : List Observable) (acc : Option (ℚ × ℚ)),
      cuts.foldl (fun a c => if c.field = f then some (c.lower, c.upper) else a) acc
        = ((cuts.reverse.find? fun c => decide (c.field = f)).map
            fun c => (c.lower, c.upper)).or acc
  | [], acc => by simp
  | c :: cs, acc => by
    rw [List.foldl_cons, fieldCut_foldl_acc f cs, List.reverse_cons,
      find?_append_or]
    cases hr : cs.reverse.find? fun c => decide (c.field = f) with
    | some d => simp
    | none =>
      by_cases hc : c.field = f
      · simp [hc]
      · simp [hc]

/-- The overwrite loop of the cut lookup table realizes last-match
semantics: the bounds stored for a field are those of the last cut in the
list whose field name matches. -/
theorem fieldCut_eq_last_listed (cuts : List Observable) (f : String) :
    fieldCut cuts f
      = (cuts.reverse.find? fun c => decide (c.field = f)).map
          fun c => (c.lower, c.upper) := by
  rw [fieldCut, fieldCut_foldl_acc, Option.or_none]

theorem passesCuts_eq_true_iff (cuts : List Observable)
    (dataset_fields : List String) (ev : List ℚ) :
    passesCuts cuts dataset_fields ev = true ↔
      ∀ p ∈ dataset_fields.zip ev, ∀ lu : ℚ × ℚ,
        fieldCut cuts p.1 = some lu → lu.1 ≤ p.2 ∧ p.2 ≤ lu.2 := by
  unfold passesCuts
  rw [List.all_eq_true]
  constructor
  · intro h p hp lu hlu
    have hb := h p hp
    simp only [hlu] at hb
    simp at hb
    exact ⟨hb.1, hb.2⟩
  · intro h p hp
    cases hlu : fieldCut cuts p.1 with
    | none => simp [hlu]
    | some lu =>
      have hin := h p hp lu hlu
      simp [hlu, not_lt.mpr hin.1, not_lt.mpr hin.2]

theorem read_eq_filter_map (sample_fields dataset_fields : List String)
    (cuts : List Observable) (rows : List (List ℚ)) :
    read_dataset_to_samples sample_fields dataset_fields cuts rows
      = (rows.filter (passesCuts cuts dataset_fields)).map
          (projectSample sample_fields dataset_fields) := by
  induction rows with
  | nil => rfl
  | cons ev rest ih =>
    cases hb : passesCuts cuts dataset_fields ev <;>
      simp [read_dataset_to_samples, List.filter_cons, hb, ih]

/-- C9: postcondition of `Signal::read_dataset_to_samples` (signals.cpp
lines 10-65).  The output is the in-order projection of exactly the
dataset events passing all cuts: (1) the output rows are the cut-passing
dataset rows, in dataset order, with the sample fields copied from the
dataset columns of the same name; (2) the cut applied to a field is the
last cut listed for that field; (3) every retained event lies in the
closed interval `[lower, upper]` of its field cuts; (4) the flat size of
the output is exactly (number of passing events) * sample_fields.size(). -/
theorem read_dataset_to_samples_post (sample_fields dataset_fields : List String)
    (cuts : List Observable) (rows : List (List ℚ)) :
    (read_dataset_to_samples sample_fields dataset_fields cuts rows
        = (rows.filter (passesCuts cuts dataset_fields)).map
            (projectSample sample_fields dataset_fields))
    ∧ (∀ f, fieldCut cuts f
        = (cuts.reverse.find? fun c => decide (c.field = f)).map
            fun c => (c.lower, c.upper))
    ∧ (∀ ev ∈ rows.filter (passesCuts cuts dataset_fields),
        ∀ p ∈ dataset_fields.zip ev, ∀ lu : ℚ × ℚ,
          fieldCut cuts p.1 = some lu → lu.1 ≤ p.2 ∧ p.2 ≤ lu.2)
    ∧ (((read_dataset_to_samples sample_fields dataset_fields cuts rows).map
          List.length).sum
        = (rows.filter (passesCuts cuts dataset_fields)).length
            * sample_fields.length) := by
  refine ⟨read_eq_filter_map _ _ _ _, fun f => fieldCut_eq_last_listed cuts f,
    ?_, ?_⟩
  · intro ev hev
    exact (passesCuts_eq_true_iff cuts dataset_fields ev).mp
      (List.of_mem_filter hev)
  · rw [read_eq_filter_map, List.map_map]
    have hc : ((rows.filter (passesCuts cuts dataset_fields)).map
        (List.length ∘ projectSample sample_fields dataset_fields))
        = (rows.filter (passesCuts cuts dataset_fields)).map
            fun _ => sample_fields.length := by
      apply List.map_congr_left
      intro ev _
      simp [projectSample]
    rw [hc, List.map_const', List.sum_replicate, smul_eq_mul, mul_comm]

theorem excludeCounts_snd_le_fst (observables : List Observable) :
    ∀ l : List (String × ℚ),
      (excludeCounts observables l).2 ≤ (excludeCounts observables l).1 := by
  intro l
  induction l with
  | nil => simp [excludeCounts]
  | cons p ps ih =>
    simp only [excludeCounts]
    cases hfe : fieldExclude observables p.1 with
    | none => simpa [hfe] using ih
    | some lu =>
      simp only [hfe]
      split <;> (try simp) <;> omega

theorem excludeCounts_fst_eq_zero_iff (observables : List Observable)
    (l : List (String × ℚ)) :
    (excludeCounts observables l).1 = 0 ↔
      ∀ p ∈ l, fieldExclude observables p.1 = none := by
  induction l with
  | nil => simp [excludeCounts]
  | cons p ps ih =>
    simp only [excludeCounts, List.mem_cons]
    cases hfe : fieldExclude observables p.1 with
    | none =>
      simp only [hfe]
      rw [ih]
      constructor
      · intro h q hq
        cases hq with
        | inl he => rw [he]; exact hfe
        | inr hm => exact h q hm
      · intro h q hq
        exact h q (Or.inr hq)
    | some lu =>
      simp only [hfe]
      constructor
      · intro h
        exact absurd h (by omega)
      · intro h
        have hp := h p (Or.inl rfl)
        rw [hfe] at hp
        cases hp

theorem excludeCounts_all_in_iff (observables : List Observable)
    (l : List (String × ℚ)) :
    (excludeCounts observables l).2 = (excludeCounts observables l).1 ↔
      ∀ p ∈ l, ∀ lu : ℚ × ℚ, fieldExclude observables p.1 = some lu →
        lu.1 ≤ p.2 ∧ p.2 ≤ lu.2 := by
  induction l with
  | nil => simp [excludeCounts]
  | cons p ps ih =>
    simp only [excludeCounts, List.mem_cons]
    cases hfe : fieldExclude observables p.1 with
    | none =>
      simp only [hfe]
      rw [ih]
      constructor
      · intro h q hq lu hlu
        cases hq with
        | inl he => rw [he, hfe] at hlu; cases hlu
        | inr hm => exact h q hm lu hlu
      · intro h q hq lu hlu
        exact h q (Or.inr hq) lu hlu
    | some lu =>
      simp only [hfe]
      have hle := excludeCounts_snd_le_fst observables ps
      split
      next hin =>
        constructor
        · intro h q hq lv hlv
          cases hq with
          | inl he =>
            subst he
            rw [hfe] at hlv
            injection hlv with hlv
            rw [← hlv]
            exact hin
          | inr hm => exact ih.mp (by omega) q hm lv hlv
        · intro h
          have hih : (excludeCounts observables ps).2
              = (excludeCounts observables ps).1 :=
            ih.mpr fun q hq lv hlv => h q (Or.inr hq) lv hlv
          omega
      next hin =>
        constructor
        · intro h
          exact absurd h (by omega)
        · intro h
          exact absurd (h p (Or.inl rfl) lu hfe) hin

theorem isExcluded_iff (observables : List Observable)
    (sample_fields : List String) (ev : List ℚ) :
    isExcluded observables sample_fields ev = true ↔
      (∃ p ∈ sample_fields.zip ev, fieldExclude observables p.1 ≠ none) ∧
      (∀ p ∈ sample_fields.zip ev, ∀ lu : ℚ × ℚ,
        fieldExclude observables p.1 = some lu →
          lu.1 ≤ p.2 ∧ p.2 ≤ lu.2) := by
  unfold isExcluded
  simp only [Bool.and_eq_true, decide_eq_true_eq]
  rw [Nat.pos_iff_ne_zero, Ne, excludeCounts_fst_eq_zero_iff,
    excludeCounts_all_in_iff]
  constructor
  · rintro ⟨h1, h2⟩
    refine ⟨?_, h2⟩
    push_neg at h1
    exact h1
  · rintro ⟨h1, h2⟩
    refine ⟨?_, h2⟩
    push_neg
    exact h1

theorem exclusionLoop_eq (observables : List Observable)
    (sample_fields : List String) (l : List (List ℚ × ℤ)) :
    exclusionLoop observables sample_fields l
      = ((l.filter fun q => !(isExcluded observables sample_fields q.1)).map
            Prod.fst,
         (l.filter fun q => !(isExcluded observables sample_fields q.1)).map
            Prod.snd) := by
  induction l with
  | nil => rfl
  | cons q l ih =>
    obtain ⟨ev, w⟩ := q
    cases hx : isExcluded observables sample_fields ev <;>
      simp [exclusionLoop, List.filter_cons, hx, ih]

theorem map_fst_filter_zip {α β : Type _} (p : α → Bool) :
    ∀ (l : List α) (w : List β), l.length ≤ w.length →
      (((l.zip w).filter fun q => p q.1).map Prod.fst) = l.filter p := by
  intro l
  induction l with
  | nil => intro w _; rfl
  | cons a l ih =>
    intro w hw
    cases w with
    | nil => simp at hw
    | cons b w =>
      simp only [List.zip_cons_cons, List.filter_cons]
      cases hp : p a <;>
        simp [hp, ih w (by simpa using hw)]

/-- C10: invariant of `Signal::apply_exclusions` (signals.cpp lines
68-126).  (1) An event is removed exactly when at least one sample field
has an exclusion region and the value of the event lies inside the
exclusion region of every such field, bounds included; in particular an
event excluded in only some of the fields with exclusions is kept, and an
event is always kept when no field has an exclusion.  (2) The output
weight list always has exactly one entry per surviving event.  (3) When
`weights` is empty on entry, the surviving events are the non-excluded
rows in order and the final resize leaves one zero weight per survivor.
(4) When `weights` has one entry per row on entry, each surviving event
keeps its own weight, moved in lockstep with its samples row. -/
theorem apply_exclusions_invariant (sample_fields : List String)
    (observables : List Observable) (rows : List (List ℚ))
    (weights : List ℤ) :
    (∀ ev : List ℚ, isExcluded observables sample_fields ev = true ↔
        (∃ p ∈ sample_fields.zip ev, fieldExclude observables p.1 ≠ none) ∧
        (∀ p ∈ sample_fields.zip ev, ∀ lu : ℚ × ℚ,
          fieldExclude observables p.1 = some lu →
            lu.1 ≤ p.2 ∧ p.2 ≤ lu.2))
    ∧ ((apply_exclusions sample_fields observables rows weights).2.length
        = (apply_exclusions sample_fields observables rows weights).1.length)
    ∧ (weights = [] →
        apply_exclusions sample_fields observables rows weights
          = (rows.filter fun ev => !(isExcluded observables sample_fields ev),
             List.replicate
               (rows.filter
                 fun ev => !(isExcluded observables sample_fields ev)).length
               0))
    ∧ (weights.length = rows.length →
        apply_exclusions sample_fields observables rows weights
          = (((rows.zip weights).filter
                fun q => !(isExcluded observables sample_fields q.1)).map
               Prod.fst,
             ((rows.zip weights).filter
                fun q => !(isExcluded observables sample_fields q.1)).map
               Prod.snd)) := by
  refine ⟨fun ev => isExcluded_iff observables sample_fields ev, ?_, ?_, ?_⟩
  · rw [apply_exclusions, exclusionLoop_eq]
    simp
  · intro hw
    subst hw
    rw [apply_exclusions]
    simp only [List.isEmpty_nil, if_pos]
    rw [exclusionLoop_eq]
    have hfst := map_fst_filter_zip
      (fun ev => !(isExcluded observables sample_fields ev)) rows
      (List.replicate rows.length (0 : ℤ)) (by simp)
    refine Prod.ext ?_ ?_
    · simpa using hfst
    · show ((rows.zip (List.replicate rows.length (0 : ℤ))).filter
          fun q => !(isExcluded observables sample_fields q.1)).map
            Prod.snd = _
      have hmem : ∀ x ∈ ((rows.zip (List.replicate rows.length (0 : ℤ))).filter
          fun q => !(isExcluded observables sample_fields q.1)).map
            Prod.snd, x = 0 := by
        intro x hx
        obtain ⟨pr, hpr, hxe⟩ := List.mem_map.mp hx
        obtain ⟨a, b⟩ := pr
        have hz := (List.of_mem_zip (List.mem_of_mem_filter hpr)).2
        rw [← hxe]
        exact List.eq_of_mem_replicate hz
      have hlen2 : (((rows.zip (List.replicate rows.length (0 : ℤ))).filter
          fun q => !(isExcluded observables sample_fields q.1)).map
            Prod.snd).length
          = (rows.filter
              fun ev => !(isExcluded observables sample_fields ev)).length := by
        rw [List.length_map, ← hfst, List.length_map]
      rw [List.eq_replicate_of_mem hmem, hlen2]
  · intro hlen
    rw [apply_exclusions]
    cases hwe : weights.isEmpty
    · simp only [hwe, Bool.false_eq_true, if_neg, ite_false]
      rw [exclusionLoop_eq]
    · have hwnil : weights = [] := List.isEmpty_iff.mp hwe
      subst hwnil
      have hrnil : rows = [] := by
        cases rows with
        | nil => rfl
        | cons a l => simp at hlen
      subst hrnil
      rfl

/-- C6: `Signal::set_efficiency` (signals.cpp lines 129-172) evaluates
the PDF histogram exactly once, on the parameter buffer holding every
systematic parameter mean (the systematics enter only at their means);
it sets `nevents` to the number of samples falling in the histogram,
computes the efficiency as that count over `n_mc`, and multiplies the
expected count by this efficiency exactly once, leaving `n_mc`
unchanged. -/
theorem set_efficiency_spec (histNorm : List ℚ → ℕ) (sig : SignalState)
    (systematics : List Systematic) :
    ((set_efficiency histNorm sig systematics).nevents
        = histNorm (meansBuffer systematics))
    ∧ (meansBuffer systematics = (systematics.map Systematic.means).flatten)
    ∧ ((set_efficiency histNorm sig systematics).efficiency
        = ((histNorm (meansBuffer systematics) : ℚ)) / (sig.n_mc : ℚ))
    ∧ ((set_efficiency histNorm sig systematics).nexpected
        = sig.nexpected
            * ((histNorm (meansBuffer systematics) : ℚ) / (sig.n_mc : ℚ)))
    ∧ ((set_efficiency histNorm sig systematics).n_mc = sig.n_mc) :=
  ⟨rfl, rfl, rfl, rfl, rfl⟩

/-! ## Helper lemmas for the MCMC core -/

theorem chunksOf_flatten {α : Type _} (b : ℕ) :
    ∀ l : List α, (chunksOf b l).flatten = l
  | [] => by simp [chunksOf]
  | x :: xs => by
    simp only [chunksOf, List.flatten_cons,
      chunksOf_flatten b ((x :: xs).drop (b + 1)), List.take_append_drop]
termination_by l => l.length
decreasing_by
  simp only [List.length_drop, List.length_cons]
  omega

theorem sum_map_sum_flatten {α : Type _} (g : α → ℝ) :
    ∀ C : List (List α),
      (C.map fun c => (c.map g).sum).sum = (C.flatten.map g).sum := by
  intro C
  induction C with
  | nil => rfl
  | cons c cs ih => simp [List.flatten_cons, ih]

theorem eventTotalSum_flatten (nj : List ℝ) (n_mc : List ℕ)
    (chunks : List (List (List ℝ))) :
    eventTotalSum nj n_mc chunks = eventChunkSum nj n_mc chunks.flatten := by
  simp only [eventTotalSum, eventChunkSum]
  exact sum_map_sum_flatten _ chunks

theorem nll_eq_direct (cfg : NLLConfig) (blocksize : ℕ)
    (lut : List (List ℝ)) (v : List ℝ) :
    MCMC.nll cfg blocksize lut v
      = (njList v cfg.nexpected cfg.source_id).sum
        + (1 / 2) * constraintSum (v.drop cfg.nsources) cfg.syst_means
            cfg.syst_sigma cfg.syst_fixed
        - (lut.map fun row =>
            safeLog (eventDensity (njList v cfg.nexpected cfg.source_id)
              cfg.n_mc row)).sum := by
  simp only [MCMC.nll, nllFromChunks, nllCombine]
  rw [eventTotalSum_flatten, chunksOf_flatten, eventChunkSum]

/-- C1: the NLL evaluator is a pure function of the lookup table and the
parameter vector: the three-stage evaluation of `MCMC::nll` (chunked
partial sums, reduction, combine) equals the direct formula
Σ_j N_j(v) + ½ Σ_k ((v_k - mean_k)/sigma_k)² - Σ_i safeLog(Σ_j N_j(v) *
P_j(x_i)/N_mc_j), where the per-event log term uses the numerically safe
log (equal to the real log whenever the density is positive, second
conjunct). -/
theorem nll_three_stage_formula (cfg : NLLConfig) (blocksize : ℕ)
    (lut : List (List ℝ)) (v : List ℝ) :
    (MCMC.nll cfg blocksize lut v
      = (njList v cfg.nexpected cfg.source_id).sum
        + (1 / 2) * constraintSum (v.drop cfg.nsources) cfg.syst_means
            cfg.syst_sigma cfg.syst_fixed
        - (lut.map fun row =>
            safeLog (eventDensity (njList v cfg.nexpected cfg.source_id)
              cfg.n_mc row)).sum)
    ∧ (∀ x : ℝ, 0 < x → safeLog x = Real.log x) :=
  ⟨nll_eq_direct cfg blocksize lut v, fun x hx => by rw [safeLog, if_pos hx]⟩

/-- C3: the three-stage NLL evaluation is invariant to the chunk
partitioning of the events: any two partitions of the lookup-table rows
(in particular one chunk versus K chunks, for any K) yield exactly the
same NLL value in the exact-real model. -/
theorem nll_chunk_partition_invariant (cfg : NLLConfig) (v : List ℝ)
    (lut : List (List ℝ)) (chunks1 chunks2 : List (List (List ℝ)))
    (h1 : chunks1.flatten = lut) (h2 : chunks2.flatten = lut) :
    nllFromChunks cfg v chunks1 = nllFromChunks cfg v chunks2 := by
  simp only [nllFromChunks]
  rw [eventTotalSum_flatten, eventTotalSum_flatten, h1, h2]

/-- Witness for C3: the two-event lookup table split into two chunks and
into a single chunk gives the same NLL. -/
theorem nll_chunk_partition_invariant_witness :
    (([[[(1 : ℝ)]], [[(2 : ℝ)]]] : List (List (List ℝ))).flatten
        = [[(1 : ℝ)], [(2 : ℝ)]])
    ∧ (([[[(1 : ℝ)], [(2 : ℝ)]]] : List (List (List ℝ))).flatten
        = [[(1 : ℝ)], [(2 : ℝ)]])
    ∧ nllFromChunks ⟨[1], [1], [0], 1, [], [], []⟩ [1]
        [[[(1 : ℝ)]], [[(2 : ℝ)]]]
      = nllFromChunks ⟨[1], [1], [0], 1, [], [], []⟩ [1]
        [[[(1 : ℝ)], [(2 : ℝ)]]] :=
  ⟨by simp, by simp,
    nll_chunk_partition_invariant ⟨[1], [1], [0], 1, [], [], []⟩ [1]
      [[(1 : ℝ)], [(2 : ℝ)]] _ _ (by simp) (by simp)⟩

theorem eventDensity_zero (nj : List ℝ) (hz : ∀ x ∈ nj, x = 0) :
    ∀ (n_mc : List ℕ) (row : List ℝ), eventDensity nj n_mc row = 0 := by
  induction nj with
  | nil => intro n_mc row; cases n_mc <;> cases row <;> rfl
  | cons x xs ih =>
    intro n_mc row
    cases n_mc with
    | nil => rfl
    | cons m ms =>
      cases row with
      | nil => rfl
      | cons p ps =>
        have hx : x = 0 := hz x (List.mem_cons_self _ _)
        have hr := ih (fun y hy => hz y (List.mem_cons_of_mem _ hy)) ms ps
        simp [eventDensity, hx, hr]

/-- C4: for a parameter vector at which every expected count N_j is zero
(all rates at zero), the evaluator absorbs the degeneracy: the zero-density
events contribute zero weight instead of a non-finite log, and the NLL is
the well-defined real number given by the constraint term alone, so the
Metropolis step can still compare and reject it. -/
theorem nll_all_rates_zero (cfg : NLLConfig) (blocksize : ℕ)
    (lut : List (List ℝ)) (v : List ℝ)
    (hz : ∀ x ∈ njList v cfg.nexpected cfg.source_id, x = 0) :
    MCMC.nll cfg blocksize lut v
      = (1 / 2) * constraintSum (v.drop cfg.nsources) cfg.syst_means
          cfg.syst_sigma cfg.syst_fixed := by
  rw [nll_eq_direct]
  have hnorm : (njList v cfg.nexpected cfg.source_id).sum = 0 :=
    List.sum_eq_zero hz
  have hev : (lut.map fun row =>
      safeLog (eventDensity (njList v cfg.nexpected cfg.source_id)
        cfg.n_mc row)) = lut.map fun _ => 0 := by
    apply List.map_congr_left
    intro row _
    rw [eventDensity_zero _ hz, safeLog, if_neg (lt_irrefl 0)]
  rw [hnorm, hev]
  simp

/-- Witness for C4: one signal with rate parameter zero over a one-event
lookup table. -/
theorem nll_all_rates_zero_witness :
    (∀ x ∈ njList [(0 : ℝ)] [1] [0], x = 0)
    ∧ MCMC.nll ⟨[1], [1], [0], 1, [], [], []⟩ 0 [[(5 : ℝ)]] [(0 : ℝ)]
        = (1 / 2) * constraintSum ([(0 : ℝ)].drop 1) [] [] [] :=
  ⟨by simp [njList], nll_all_rates_zero ⟨[1], [1], [0], 1, [], [], []⟩ 0
    [[(5 : ℝ)]] [(0 : ℝ)] (by simp [njList])⟩

/-- C2: the Metropolis acceptance rule of one walk step (debug mode off).
The candidate is accepted exactly when its NLL does not exceed the
current one or the uniform draw is below exp(nll - nllCand); in
particular a candidate with nllCand ≤ nll is accepted with probability 1
(for every value of the draw); and the chain state moves to the candidate
exactly when it is accepted, staying put otherwise. -/
theorem metropolis_acceptance_rule (E : List ℝ → ℝ) (fixedf : List Bool)
    (sigma : List ℝ) (s : ChainState) (r : StepRand) :
    ((mcmcStep E fixedf sigma false s r).2 = true
        ↔ E (propose s.v fixedf sigma r.gauss) ≤ s.nll
          ∨ r.u < Real.exp (s.nll - E (propose s.v fixedf sigma r.gauss)))
    ∧ (E (propose s.v fixedf sigma r.gauss) ≤ s.nll →
        (mcmcStep E fixedf sigma false s r).2 = true)
    ∧ ((mcmcStep E fixedf sigma false s r).1
        = if (mcmcStep E fixedf sigma false s r).2 = true
          then { v := propose s.v fixedf sigma r.gauss,
                 nll := E (propose s.v fixedf sigma r.gauss) }
          else s) := by
  simp only [mcmcStep, mhAccept, Bool.false_or]
  by_cases h1 : E (propose s.v fixedf sigma r.gauss) ≤ s.nll
  · simp [h1]
  · by_cases h2 : r.u < Real.exp (s.nll - E (propose s.v fixedf sigma r.gauss))
    · simp [h1, h2]
    · simp [h1, h2]

theorem mcmcStep_debug_snd (E : List ℝ → ℝ) (fixedf : List Bool)
    (sigma : List ℝ) (s : ChainState) (r : StepRand) :
    (mcmcStep E fixedf sigma true s r).2 = true := by
  simp [mcmcStep]

theorem walkAux_length_le (E : List ℝ → ℝ) (fixedf : List Bool)
    (sigma : List ℝ) (debug_mode : Bool) (burnin : ℕ) :
    ∀ (rs : List StepRand) (s : ChainState) (i : ℕ),
      (walkAux E fixedf sigma debug_mode burnin s i rs).length
        ≤ rs.length - (burnin - i) := by
  intro rs
  induction rs with
  | nil => intro s i; simp [walkAux]
  | cons r rs ih =>
    intro s i
    simp only [walkAux, List.length_append, List.length_cons]
    have hrec := ih (mcmcStep E fixedf sigma debug_mode s r).1 (i + 1)
    by_cases hbi : burnin ≤ i
    · have h1 : (if burnin ≤ i
            ∧ (mcmcStep E fixedf sigma debug_mode s r).2 = true
          then [((mcmcStep E fixedf sigma debug_mode s r).1.v,
                 (mcmcStep E fixedf sigma debug_mode s r).1.nll)]
          else []).length ≤ 1 := by
        split <;> simp
      omega
    · rw [if_neg fun hc => hbi hc.1]
      simp only [List.length_nil]
      omega

theorem walkAux_length_debug (E : List ℝ → ℝ) (fixedf : List Bool)
    (sigma : List ℝ) (burnin : ℕ) :
    ∀ (rs : List StepRand) (s : ChainState) (i : ℕ),
      (walkAux E fixedf sigma true burnin s i rs).length
        = rs.length - (burnin - i) := by
  intro rs
  induction rs with
  | nil => intro s i; simp [walkAux]
  | cons r rs ih =>
    intro s i
    simp only [walkAux, List.length_append, List.length_cons,
      mcmcStep_debug_snd, and_true]
    have hrec := ih (mcmcStep E fixedf sigma true s r).1 (i + 1)
    by_cases hbi : burnin ≤ i
    · rw [if_pos hbi]
      simp only [List.length_cons, List.length_nil]
      omega
    · rw [if_neg hbi]
      simp only [List.length_nil]
      omega

/-- C5: recorded-sample count invariant of the walk.  With burn-in step
count `burnin = floor(nsteps * burnin_fraction)` and `nsteps` step draws:
the walk restricted to the first `burnin` draws records no sample; the
total number of recorded samples is at most `nsteps - burnin`; and in
debug mode (every step accepted and recorded) it equals
`nsteps - burnin` exactly. -/
theorem walk_recorded_sample_count (E : List ℝ → ℝ) (fixedf : List Bool)
    (sigma : List ℝ) (debug_mode : Bool) (s0 : ChainState) (nsteps : ℕ)
    (burnin_fraction : ℚ) (burnin : ℕ) (rs : List StepRand)
    (hb : burnin = Nat.floor ((nsteps : ℚ) * burnin_fraction))
    (hr : rs.length = nsteps) :
    (walkAux E fixedf sigma debug_mode burnin s0 0 (rs.take burnin) = [])
    ∧ ((walkAux E fixedf sigma debug_mode burnin s0 0 rs).length
        ≤ nsteps - burnin)
    ∧ (debug_mode = true →
        (walkAux E fixedf sigma debug_mode burnin s0 0 rs).length
          = nsteps - burnin) := by
  refine ⟨?_, ?_, ?_⟩
  · have h := walkAux_length_le E fixedf sigma debug_mode burnin
      (rs.take burnin) s0 0
    have h2 : (rs.take burnin).length ≤ burnin := by
      simp [List.length_take]
    have h3 : (walkAux E fixedf sigma debug_mode burnin s0 0
        (rs.take burnin)).length = 0 := by omega
    exact List.length_eq_zero.mp h3
  · have h := walkAux_length_le E fixedf sigma debug_mode burnin rs s0 0
    omega
  · intro hd
    subst hd
    have h := walkAux_length_debug E fixedf sigma burnin rs s0 0
    omega

/-- Witness for C5: two steps with burn-in fraction one half in debug
mode record exactly one sample. -/
theorem walk_recorded_sample_count_witness :
    (1 = Nat.floor (((2 : ℕ) : ℚ) * (1 / 2)))
    ∧ (([⟨[], 0⟩, ⟨[], 0⟩] : List StepRand).length = 2)
    ∧ ((walkAux (fun _ => (0 : ℝ)) [] [] true 1 ⟨[], 0⟩ 0
          (([⟨[], 0⟩, ⟨[], 0⟩] : List StepRand).take 1) = [])
      ∧ ((walkAux (fun _ => (0 : ℝ)) [] [] true 1 ⟨[], 0⟩ 0
            [⟨[], 0⟩, ⟨[], 0⟩]).length ≤ 2 - 1)
      ∧ (true = true →
          (walkAux (fun _ => (0 : ℝ)) [] [] true 1 ⟨[], 0⟩ 0
              [⟨[], 0⟩, ⟨[], 0⟩]).length = 2 - 1)) :=
  ⟨by norm_num, rfl,
    walk_recorded_sample_count (fun _ => (0 : ℝ)) [] [] true ⟨[], 0⟩ 2
      (1 / 2) 1 [⟨[], 0⟩, ⟨[], 0⟩] (by norm_num) rfl⟩

/-- C7: the walk invocation surface.  The three-argument form equals the
full call with the declared default values `debug_mode = false` and
`sync_interval = 10000`; under the preconditions `nsteps > 0`,
`burnin_fraction` in `[0, 1)` and `sync_interval > 0`, the returned
LikelihoodSpace carries exactly the samples recorded by the walk (the
recorder flush blocks reassemble to the full sample list) and the
burn-in prefix is a strict prefix of the run. -/
theorem run_invocation_surface (m : MCMCModel) (rand : List StepRand)
    (data : List ℝ) (nsteps : ℕ) (burnin_fraction : ℚ) (debug_mode : Bool)
    (sync_interval : ℕ) (hn : 0 < nsteps) (hf0 : 0 ≤ burnin_fraction)
    (hf1 : burnin_fraction < 1) (hs : 0 < sync_interval) :
    (MCMC.runDefault m rand data nsteps burnin_fraction
        = MCMC.run m rand data nsteps burnin_fraction false 10000)
    ∧ ((MCMC.run m rand data nsteps burnin_fraction debug_mode
          sync_interval).samples
        = walkAux m.E m.parameter_fixed m.parameter_sigma debug_mode
            (Nat.floor ((nsteps : ℚ) * burnin_fraction)) m.init 0
            (rand.take nsteps))
    ∧ Nat.floor ((nsteps : ℚ) * burnin_fraction) < nsteps := by
  refine ⟨rfl, ?_, ?_⟩
  · simp only [MCMC.run]
    rw [chunksOf_flatten]
  · have hlt : (nsteps : ℚ) * burnin_fraction < ((nsteps : ℕ) : ℚ) :=
      mul_lt_of_lt_one_right (by exact_mod_cast hn) hf1
    exact (Nat.floor_lt (mul_nonneg (Nat.cast_nonneg _) hf0)).mpr hlt

/-- Witness for C7: a one-step run with all preconditions at concrete
values. -/
theorem run_invocation_surface_witness :
    (0 < 1)
    ∧ ((0 : ℚ) ≤ 0)
    ∧ ((0 : ℚ) < 1)
    ∧ ((MCMC.runDefault ⟨[], [], [], ⟨[], 0⟩, fun _ => (0 : ℝ)⟩ [] [] 1 0
          = MCMC.run ⟨[], [], [], ⟨[], 0⟩, fun _ => (0 : ℝ)⟩ [] [] 1 0
              false 10000)
      ∧ ((MCMC.run ⟨[], [], [], ⟨[], 0⟩, fun _ => (0 : ℝ)⟩ [] [] 1 0
            false 1).samples
          = walkAux (MCMCModel.mk [] [] [] ⟨[], 0⟩ (fun _ => (0 : ℝ))).E
              (MCMCModel.mk [] [] [] ⟨[], 0⟩ (fun _ => (0 : ℝ))).parameter_fixed
              (MCMCModel.mk [] [] [] ⟨[], 0⟩ (fun _ => (0 : ℝ))).parameter_sigma
              false (Nat.floor (((1 : ℕ) : ℚ) * 0))
              (MCMCModel.mk [] [] [] ⟨[], 0⟩ (fun _ => (0 : ℝ))).init 0
              (([] : List StepRand).take 1))
      ∧ Nat.floor (((1 : ℕ) : ℚ) * 0) < 1) :=
  ⟨by decide, le_refl 0, by norm_num,
    run_invocation_surface ⟨[], [], [], ⟨[], 0⟩, fun _ => (0 : ℝ)⟩ [] [] 1 0
      false 1 (by decide) (le_refl 0) (by norm_num) (by decide)⟩

/-- C8: reproducibility as a two-run property.  The walk is a
deterministic function of the seed sequence and the lane partitioning:
two runs with identical seed sequences and identical lane counts produce
the identical LikelihoodSpace (accepted samples) and the identical
sequence of proposed candidate vectors. -/
theorem run_reproducibility (m : MCMCModel) (gX uX : ℕ → ℝ)
    (seeds1 seeds2 : List ℕ) (nlanes1 nlanes2 : ℕ) (data : List ℝ)
    (nsteps : ℕ) (burnin_fraction : ℚ) (debug_mode : Bool)
    (sync_interval : ℕ) (hs : seeds1 = seeds2) (hl : nlanes1 = nlanes2) :
    runFromSeeds m gX uX seeds1 nlanes1 data nsteps burnin_fraction
        debug_mode sync_interval
      = runFromSeeds m gX uX seeds2 nlanes2 data nsteps burnin_fraction
          debug_mode sync_interval := by
  rw [hs, hl]

/-- Witness for C8: two runs with the same one-entry seed list and one
lane coincide. -/
theorem run_reproducibility_witness :
    (([0] : List ℕ) = [0])
    ∧ ((1 : ℕ) = 1)
    ∧ runFromSeeds ⟨[], [], [], ⟨[], 0⟩, fun _ => (0 : ℝ)⟩ (fun _ => 0)
        (fun _ => 0) [0] 1 [] 1 0 false 1
      = runFromSeeds ⟨[], [], [], ⟨[], 0⟩, fun _ => (0 : ℝ)⟩ (fun _ => 0)
          (fun _ => 0) [0] 1 [] 1 0 false 1 :=
  ⟨rfl, rfl,
    run_reproducibility ⟨[], [], [], ⟨[], 0⟩, fun _ => (0 : ℝ)⟩ (fun _ => 0)
      (fun _ => 0) [0] [0] 1 1 [] 1 0 false 1 rfl rfl⟩

end Sxmc
